import Mathlib

/-!
Shallow embedding of the OpenTimestamps server hash DAG
(`opentimestamps/dag.pyx`) and calendar (`opentimestamps/calendar.pyx`).

Byte strings are modelled as `List Nat` (each entry one byte).  The SHA256
compression itself is kept abstract: every digest-level statement is
universally quantified over the hash function `H : List Nat → List Nat`,
matching `_hash_data` which is only ever called with the single supported
algorithm.  Everything else — the byte layout fed to the hash, the `order`
bookkeeping, the tree-building loop, the `Digest` constructor — is translated
directly from the source.
-/

namespace OTS

/-- A value in the DAG: either a plain `Digest` (a leaf, carrying its raw
digest bytes) or a `DagVertex` built from a left and a right input together
with the `order` argument passed to `DagVertex.__init__` (the source calls it
with the default `order = 0` from `create_optimal_tree`). -/
inductive DigestTree where
  | leaf (digest : List Nat)
  | vertex (ord : Nat) (left right : DigestTree)
deriving DecidableEq, Repr

namespace DigestTree

/-- `isinstance(x, DagVertex)` test from the source. -/
def isVertex : DigestTree → Bool
  | .leaf _ => false
  | .vertex _ _ _ => true

/-- The `order` attribute as computed by `DagVertex.__init__`:
start from the `order` argument, then for each input that is itself a
`DagVertex` take the max with that input's order plus one.  (A plain `Digest`
has no order; `order` of a leaf is never consulted thanks to the
`isVertex` guards, we set it to 0.) -/
def order : DigestTree → Nat
  | .leaf _ => 0
  | .vertex o l r =>
      max (max o (if l.isVertex then l.order + 1 else 0))
          (if r.isVertex then r.order + 1 else 0)

end DigestTree

/-- Big-endian encoding of `v` into exactly `n` bytes (the behaviour of
`struct.pack` for fixed-width unsigned fields; an `unsigned long long` wraps
modulo 2^64, which the 8-byte truncation reproduces). -/
def natToBE : Nat → Nat → List Nat
  | 0, _ => []
  | n + 1, v => natToBE n (v / 256) ++ [v % 256]

/-- `struct.pack('>QBBB', q, a, b, c)`: an 8-byte big-endian unsigned long
long followed by three single bytes. -/
def pack_QBBB (q a b c : Nat) : List Nat :=
  natToBE 8 q ++ [a % 256, b % 256, c % 256]

/-- The digest value of a tree node. A plain `Digest` keeps its stored bytes;
a `DagVertex` hashes `struct.pack('>QBBB', order, algorithm=SHA256(=1),
len(left.digest), len(right.digest)) + left.digest + right.digest`
(`DagVertex.get_digest_data` / `Digest.calculate_digest`). -/
def digestF (H : List Nat → List Nat) : DigestTree → List Nat
  | .leaf d => d
  | .vertex o l r =>
      H (pack_QBBB (DigestTree.order (.vertex o l r)) 1
           (digestF H l).length (digestF H r).length
         ++ digestF H l ++ digestF H r)

/-- `get_digest_data`: defined for `DagVertex` only; a raw `Digest` raises
`NotImplementedError`, modelled as `none`. -/
def get_digest_data (H : List Nat → List Nat) :
    DigestTree → Option (List Nat)
  | .leaf _ => none
  | .vertex o l r =>
      some (pack_QBBB (DigestTree.order (.vertex o l r)) 1
              (digestF H l).length (digestF H r).length
            ++ digestF H l ++ digestF H r)

/-- One pass of the inner pairing loop of `create_optimal_tree`: consume the
digest list two at a time, making a `DagVertex(left, right)` (with the default
`order = 0`) from each pair; a trailing odd element is appended unchanged
(the `StopIteration` branch, whose `assert(right is None)` always holds since
`right` is reset to `None` before each `i.next()` pair). -/
def combine_pairs : List DigestTree → List DigestTree
  | [] => []
  | [l] => [l]
  | l :: r :: rest => .vertex 0 l r :: combine_pairs rest

/-- The `while len(digests) > 1` loop of `create_optimal_tree`, driven by a
fuel argument; `create_optimal_tree_loop` supplies fuel equal to the list
length, which `create_optimal_tree_fuel_enough` below proves sufficient for
the loop to reach its exit condition. -/
def loopN : Nat → List DigestTree → List DigestTree
  | 0, ds => ds
  | n + 1, ds => if ds.length > 1 then loopN n (combine_pairs ds) else ds

def create_optimal_tree_loop (ds : List DigestTree) : List DigestTree :=
  loopN ds.length ds

/-- `create_optimal_tree(digests)`: asserts the input is non-empty (`none`
models the failed assertion), runs the pairing loop until a single digest
remains, and returns it (`digests[0]`). -/
def create_optimal_tree (digests : List DigestTree) : Option DigestTree :=
  if digests.length > 0 then (create_optimal_tree_loop digests).head? else none

/-!
Reference construction for the refinement claim about `create_optimal_tree`.
The definitions below follow the spec's words, not the source: the buffer's
digests are covered by the forest of largest-possible perfect binary Merkle
trees (each built by combining adjacent equal-height pairs into a parent,
i.e. by full left-to-right pairing passes over the equal-height segment), and
the peaks of that forest are then bagged left-to-right, pairwise combined in
the same manner, producing a single commitment.
-/

/-- Modelled from the spec: one left-to-right pass combining adjacent pairs
into parent nodes, the spec's combining step both inside a perfect tree and
when bagging peaks. -/
def spec_combine_pass : List DigestTree → List DigestTree
  | [] => []
  | [p] => [p]
  | p :: q :: rest => .vertex 0 p q :: spec_combine_pass rest

/-- Modelled from the spec: repeat combining passes until a single node
remains (fuel-driven; the list length is always enough fuel, as for
`loopN`). -/
def spec_buildN : Nat → List DigestTree → List DigestTree
  | 0, ts => ts
  | n + 1, ts => if ts.length > 1 then spec_buildN n (spec_combine_pass ts) else ts

def spec_build (ts : List DigestTree) : List DigestTree :=
  spec_buildN ts.length ts

/-- Fuel-driven floor base-2 logarithm; equal to `Nat.log2` whenever the
fuel is at least `n` (`log2floor_eq` below), but evaluable by the kernel. -/
def log2N : Nat → Nat → Nat
  | 0, _ => 0
  | f + 1, n => if n ≥ 2 then log2N f (n / 2) + 1 else 0

def log2floor (n : Nat) : Nat := log2N n n

/-- Modelled from the spec: the Merkle mountain range peaks — greedily carve
off the largest power-of-two prefix of the ordered input, build the perfect
tree over it, and recurse on the remainder. -/
def spec_mmr_peaksN : Nat → List DigestTree → List DigestTree
  | 0, _ => []
  | n + 1, ds =>
      if ds.length = 0 then []
      else
        (spec_build (ds.take (2 ^ log2floor ds.length))).headD (DigestTree.leaf [])
          :: spec_mmr_peaksN n (ds.drop (2 ^ log2floor ds.length))

def spec_mmr_peaks (ds : List DigestTree) : List DigestTree :=
  spec_mmr_peaksN ds.length ds

/-- Modelled from the spec: the round commitment — bag the MMR peaks
left-to-right, pairwise combined in the same manner, down to one digest. -/
def spec_top (ds : List DigestTree) : Option DigestTree :=
  (spec_build (spec_mmr_peaks ds)).head?

/-!  The `Digest` constructor (`Digest.__init__`) and its textual form. -/

/-- The ASCII bytes of the string `sha256:` checked by `Digest.__init__`. -/
def sha256_marker : List Nat := [115, 104, 97, 50, 53, 54, 58]

/-- Value of one ASCII hex digit, as accepted by `binascii.unhexlify`
(digits, lowercase and uppercase letters). -/
def hexDigitVal (c : Nat) : Option Nat :=
  if 48 ≤ c ∧ c ≤ 57 then some (c - 48)
  else if 97 ≤ c ∧ c ≤ 102 then some (c - 97 + 10)
  else if 65 ≤ c ∧ c ≤ 70 then some (c - 65 + 10)
  else none

/-- `binascii.unhexlify`: decode pairs of hex characters into bytes; an odd
length or a non-hex character raises (modelled as `none`). -/
def unhexlify : List Nat → Option (List Nat)
  | [] => some []
  | [_] => none
  | c1 :: c2 :: rest => do
      let hi ← hexDigitVal c1
      let lo ← hexDigitVal c2
      let tail ← unhexlify rest
      pure ((hi * 16 + lo) :: tail)

/-- The ASCII character for a hex digit, lowercase, as emitted by
`binascii.hexlify`. -/
def hexDigitChar (n : Nat) : Nat := if n < 10 then 48 + n else 87 + n

/-- `binascii.hexlify`: two lowercase hex characters per byte. -/
def hexlify : List Nat → List Nat
  | [] => []
  | b :: rest => hexDigitChar (b / 16) :: hexDigitChar (b % 16) :: hexlify rest

/-- `Digest.__init__(digest, algorithm=SHA256)`, returning the stored
`(digest, algorithm)` pair or `none` when the constructor raises:
an empty string becomes the null digest (algorithm 0); a string that starts
with `sha256:` and has length `7 + 256/4` is hex-decoded; any other length
but `256/8` raises `TypeError`; finally `assert(len(digest) <= 128)`. -/
def Digest_init (digest : List Nat) (algorithm : Nat := 1) :
    Option (List Nat × Nat) :=
  if digest.length = 0 then
    if digest.length ≤ 128 then some (digest, 0) else none
  else if digest.take 7 = sha256_marker ∧ digest.length = 7 + 256 / 4 then
    match unhexlify (digest.drop 7) with
    | some d => if d.length ≤ 128 then some (d, algorithm) else none
    | none => none
  else if digest.length ≠ 256 / 8 then none
  else if digest.length ≤ 128 then some (digest, algorithm) else none

/-!  The calendar (`opentimestamps/calendar.pyx`). -/

/-- `Calendar.__init__`: the chain starts as the one-element list
`[Digest('')]` (the null digest: empty bytes). -/
def Calendar_init : List DigestTree := [DigestTree.leaf []]

/-- `Calendar.update(digest_head)`: appends `DagVertex(chain[-1], digest_head)`
to the chain.  `chain[-1]` on an empty list would raise (`none`); the function
body has no `return` statement, so the Python return value is always `None`,
modelled by the second component. -/
def Calendar_update (chain : List DigestTree) (digest_head : DigestTree) :
    Option (List DigestTree × Option Unit) :=
  match chain.getLast? with
  | some last => some (chain ++ [DigestTree.vertex 0 last digest_head], none)
  | none => none

/-- A sequence of `update` calls starting from a fresh calendar. -/
def Calendar_run (heads : List DigestTree) : Option (List DigestTree) :=
  heads.foldlM (fun c dh => (Calendar_update c dh).map Prod.fst) Calendar_init

/-!  `DagVertex.all_parents` and supporting structural notions. -/

/-- All subtrees of a tree (the tree itself included): the structural notion
of everything reachable through `left`/`right` inputs. -/
def subAll : DigestTree → List DigestTree
  | .leaf d => [.leaf d]
  | .vertex o l r => .vertex o l r :: (subAll l ++ subAll r)

/-- The structural contents of the `all_parents` set: both inputs of every
vertex, recursively (a leaf contributes no parents). -/
def all_parents_trees : DigestTree → List DigestTree
  | .leaf _ => []
  | .vertex _ l r => l :: r :: (all_parents_trees l ++ all_parents_trees r)

/-- Number of nodes of a tree. -/
def size : DigestTree → Nat
  | .leaf _ => 1
  | .vertex _ l r => size l + size r + 1

/-- `DagVertex._all_parents(s, max_depth)` with the default unlimited depth
(`all_parents()` passes `max_depth = -1`, which the guard turns into "no
limit").  The Python set `s` holds `Digest` objects whose hashing and
equality are by digest bytes, so it is modelled as a list of digests: each
input is added if its digest is not present, and a vertex input is then
recursed into. -/
def all_parents_step (H : List Nat → List Nat) :
    DigestTree → List (List Nat) → List (List Nat)
  | .leaf _, s => s
  | .vertex _ l r, s =>
      let s1 :=
        if digestF H l ∈ s then s
        else if l.isVertex then all_parents_step H l (digestF H l :: s)
        else digestF H l :: s
      if digestF H r ∈ s1 then s1
      else if r.isVertex then all_parents_step H r (digestF H r :: s1)
      else digestF H r :: s1

/-- `DagVertex.all_parents()`: run the traversal from an empty set. -/
def all_parents (H : List Nat → List Nat) (t : DigestTree) : List (List Nat) :=
  all_parents_step H t []

/-- One child-handling phase of `_all_parents`, factored out of
`all_parents_step`: skip a digest already in the set, otherwise add it and
recurse when the child is a vertex. -/
def phase_set (H : List Nat → List Nat) (c : DigestTree)
    (s0 : List (List Nat)) : List (List Nat) :=
  if digestF H c ∈ s0 then s0
  else if c.isVertex then all_parents_step H c (digestF H c :: s0)
  else digestF H c :: s0

/-- Invariant of the `all_parents` traversal: every digest in the visited set
belongs to a subtree of `top` that is either an in-progress ancestor (in `A`)
or has been fully traversed (all of its own parents' digests are in the
set). -/
def APInv (H : List Nat → List Nat) (top : DigestTree)
    (A : List DigestTree) (s : List (List Nat)) : Prop :=
  ∀ d ∈ s, ∃ u, u ∈ subAll top ∧ digestF H u = d ∧
    (u ∈ A ∨ ∀ p ∈ all_parents_trees u, digestF H p ∈ s)

/-!  ## Lemmas about the pairing loop -/

theorem combine_pairs_length :
    ∀ ds : List DigestTree, (combine_pairs ds).length = (ds.length + 1) / 2
  | [] => rfl
  | [_] => by simp [combine_pairs]
  | _ :: _ :: rest => by
      simp [combine_pairs, combine_pairs_length rest]
      omega

/-- Fuel equal to the list length is enough: the loop's exit condition
(`len(digests) ≤ 1`) is reached. -/
theorem create_optimal_tree_fuel_enough :
    ∀ (n : Nat) (ds : List DigestTree), ds.length ≤ n →
      (loopN n ds).length ≤ 1 := by
  intro n
  induction n with
  | zero => intro ds h; simp only [loopN]; omega
  | succ n ih =>
      intro ds h
      by_cases hlen : ds.length > 1
      · simp only [loopN, hlen, if_true]
        exact ih _ (by rw [combine_pairs_length]; omega)
      · simp only [loopN, hlen, if_false]
        omega

/-- Extra fuel does not change the loop's result. -/
theorem loopN_eq_of_le :
    ∀ (n : Nat) {m : Nat} (ds : List DigestTree),
      ds.length ≤ n → ds.length ≤ m → loopN n ds = loopN m ds := by
  intro n
  induction n with
  | zero =>
      intro m ds h _
      have hds : ds = [] := List.length_eq_zero.mp (Nat.le_zero.mp h)
      subst hds
      cases m <;> simp [loopN]
  | succ n ih =>
      intro m ds h hm
      by_cases hlen : ds.length > 1
      · have hm2 : 2 ≤ m := by omega
        obtain ⟨m', rfl⟩ : ∃ m', m = m' + 1 := ⟨m - 1, by omega⟩
        simp only [loopN, hlen, if_true]
        exact ih _ (by rw [combine_pairs_length]; omega)
          (by rw [combine_pairs_length]; omega)
      · cases m <;> simp [loopN, hlen]

theorem combine_pairs_ne_nil :
    ∀ ds : List DigestTree, ds ≠ [] → combine_pairs ds ≠ []
  | [], h => absurd rfl h
  | [_], _ => by simp [combine_pairs]
  | _ :: _ :: _, _ => by simp [combine_pairs]

theorem loopN_ne_nil :
    ∀ (n : Nat) (ds : List DigestTree), ds ≠ [] → loopN n ds ≠ [] := by
  intro n
  induction n with
  | zero => intro ds h; simpa [loopN] using h
  | succ n ih =>
      intro ds h
      by_cases hlen : ds.length > 1
      · simp only [loopN, hlen, if_true]
        exact ih _ (combine_pairs_ne_nil ds h)
      · simpa [loopN, hlen] using h

/-!  ## Claims about `create_optimal_tree`: C5, C6, C3 -/

/-- C5: `create_optimal_tree([d])` returns `d` itself unchanged — the
commitment of a one-element round is that element, and no combining vertex
is created. -/
theorem claim_C5_singleton (t : DigestTree) :
    create_optimal_tree [t] = some t := by
  simp [create_optimal_tree, create_optimal_tree_loop, loopN]

/-- C6: `create_optimal_tree` fails its entry assertion exactly on the empty
list, and on every non-empty list it returns a digest (the inner pairing
loop's `assert(right is None)` is structurally unreachable: `right` is reset
to `None` before each pair of `i.next()` calls). -/
theorem claim_C6_nonempty (ds : List DigestTree) :
    create_optimal_tree ds = none ↔ ds = [] := by
  by_cases h : ds = []
  · subst h; simp [create_optimal_tree]
  · have hlen : ds.length > 0 := List.length_pos.mpr h
    simp only [create_optimal_tree, create_optimal_tree_loop, hlen, if_true]
    rw [List.head?_eq_none_iff]
    simp only [h, iff_false]
    exact loopN_ne_nil _ ds h

/-- C3: `create_optimal_tree` is deterministic — two runs on equal ordered
digest lists return equal top digests. -/
theorem claim_C3_deterministic (H : List Nat → List Nat)
    (ds1 ds2 : List (List Nat)) (h : ds1 = ds2) :
    (create_optimal_tree (ds1.map DigestTree.leaf)).map (digestF H)
      = (create_optimal_tree (ds2.map DigestTree.leaf)).map (digestF H) := by
  rw [h]

theorem claim_C3_witness :
    ([[0], [1]] : List (List Nat)) = [[0], [1]] ∧
    (create_optimal_tree (([[0], [1]] : List (List Nat)).map DigestTree.leaf)).map (digestF id)
      = (create_optimal_tree (([[0], [1]] : List (List Nat)).map DigestTree.leaf)).map (digestF id) :=
  ⟨rfl, claim_C3_deterministic id [[0], [1]] [[0], [1]] rfl⟩

/-!  ## Claim C1: the bytes hashed by a combining vertex -/

/-- C1 as stated is false: the data hashed for `DagVertex(d1, d2)` is not the
bare concatenation `d1 ∥ d2` — the source prepends the
`struct.pack('>QBBB', order, algorithm, 32, 32)` header.  Concretely, with
both inputs the 32-zero-byte digest, `get_digest_data` is not
`some (d1 ++ d2)`. -/
theorem claim_C1_counterexample :
    get_digest_data id
        (DigestTree.vertex 0 (.leaf (List.replicate 32 0)) (.leaf (List.replicate 32 0)))
      ≠ some (List.replicate 32 0 ++ List.replicate 32 0) := by
  decide

/-- C1 amended: the parent digest of `DagVertex(d1, d2)` (as built by
`create_optimal_tree`, order argument 0) is the hash of the 11-byte header
`struct.pack('>QBBB', 0, 1, 32, 32)` followed by `d1 ∥ d2`, not of the bare
concatenation. -/
theorem claim_C1_header (H : List Nat → List Nat) (d1 d2 : List Nat)
    (h1 : d1.length = 32) (h2 : d2.length = 32) :
    get_digest_data H (DigestTree.vertex 0 (.leaf d1) (.leaf d2))
      = some (pack_QBBB 0 1 32 32 ++ d1 ++ d2) ∧
    digestF H (DigestTree.vertex 0 (.leaf d1) (.leaf d2))
      = H (pack_QBBB 0 1 32 32 ++ d1 ++ d2) := by
  constructor <;>
    simp [get_digest_data, digestF, DigestTree.order, DigestTree.isVertex, h1, h2]

theorem claim_C1_header_witness :
    (List.replicate 32 (0 : Nat)).length = 32 ∧
    get_digest_data id
        (DigestTree.vertex 0 (.leaf (List.replicate 32 0)) (.leaf (List.replicate 32 0)))
      = some (pack_QBBB 0 1 32 32 ++ List.replicate 32 0 ++ List.replicate 32 0) :=
  ⟨by decide, (claim_C1_header id _ _ (by decide) (by decide)).1⟩

/-!  ## Claim C9: the order invariant of `DagVertex.__init__` -/

/-- C9: a vertex's `order` is at least the `order` argument passed at
construction, and strictly greater than the order of each input that is
itself a `DagVertex` (the `if` guards encode exactly that conditional:
for a vertex input the bound is `input.order + 1 ≤ parent.order`, i.e.
strict dominance; a plain `Digest` input imposes nothing). -/
theorem claim_C9_order_invariant (o : Nat) (l r : DigestTree) :
    o ≤ (DigestTree.vertex o l r).order ∧
    (if l.isVertex then l.order + 1 else 0) ≤ (DigestTree.vertex o l r).order ∧
    (if r.isVertex then r.order + 1 else 0) ≤ (DigestTree.vertex o l r).order := by
  refine ⟨?_, ?_, ?_⟩ <;> simp only [DigestTree.order]
  · exact le_trans (Nat.le_max_left _ _) (Nat.le_max_left _ _)
  · exact le_trans (Nat.le_max_right _ _) (Nat.le_max_left _ _)
  · exact Nat.le_max_right _ _

/-!  ## Claim C10: the calendar chain invariant -/

/-- C10: the calendar starts with chain `[Digest('')]`; every `update` on a
non-empty chain appends exactly one vertex whose left input is the previous
last chain element, leaves all earlier entries unchanged, and returns `None`;
and after `n` updates the chain has `n + 1` elements. -/
theorem claim_C10_chain :
    Calendar_init = [DigestTree.leaf []] ∧
    (∀ (chain : List DigestTree) (dh last : DigestTree),
        chain.getLast? = some last →
        Calendar_update chain dh
          = some (chain ++ [DigestTree.vertex 0 last dh], none)) ∧
    (∀ heads : List DigestTree, ∃ chain,
        Calendar_run heads = some chain ∧ chain.length = heads.length + 1) := by
  refine ⟨rfl, ?_, ?_⟩
  · intro chain dh last hlast
    simp [Calendar_update, hlast]
  · intro heads
    have aux : ∀ (hs : List DigestTree) (c : List DigestTree), c ≠ [] →
        ∃ c', List.foldlM (fun c dh => (Calendar_update c dh).map Prod.fst) c hs
            = some c' ∧ c'.length = c.length + hs.length ∧ c' ≠ [] := by
      intro hs
      induction hs with
      | nil => intro c hc; exact ⟨c, rfl, by simp, hc⟩
      | cons dh t ih =>
          intro c hc
          obtain ⟨last, hlast⟩ :=
            Option.isSome_iff_exists.mp (List.getLast?_isSome.mpr hc)
          obtain ⟨c', hfold, hlen, hne⟩ :=
            ih (c ++ [DigestTree.vertex 0 last dh]) (by simp)
          refine ⟨c', ?_, by simp at hlen ⊢; omega, hne⟩
          rw [List.foldlM_cons]
          simpa [Calendar_update, hlast] using hfold
    obtain ⟨c', h1, h2, _⟩ := aux heads Calendar_init (by simp [Calendar_init])
    refine ⟨c', h1, ?_⟩
    simp only [Calendar_init, List.length_singleton] at h2
    omega

theorem claim_C10_chain_witness :
    Calendar_update Calendar_init (DigestTree.leaf [5])
      = some (Calendar_init
              ++ [DigestTree.vertex 0 (DigestTree.leaf []) (DigestTree.leaf [5])], none) ∧
    ∃ chain, Calendar_run [DigestTree.leaf [5]] = some chain ∧
      chain.length = [DigestTree.leaf [5]].length + 1 := by
  obtain ⟨_, h2, h3⟩ := claim_C10_chain
  exact ⟨h2 Calendar_init (DigestTree.leaf [5]) (DigestTree.leaf []) rfl, h3 _⟩

/-!  ## Lemmas about hex encoding, for claims C7 and C8 -/

theorem unhexlify_length :
    ∀ (l d : List Nat), unhexlify l = some d → 2 * d.length = l.length
  | [], d => by
      intro h
      simp only [unhexlify, Option.some.injEq] at h
      subst h; rfl
  | [_], d => by intro h; simp [unhexlify] at h
  | c1 :: c2 :: rest, d => by
      intro h
      simp only [unhexlify, Option.bind_eq_bind] at h
      cases h1 : hexDigitVal c1 <;> rw [h1] at h <;>
        simp only [Option.none_bind, Option.some_bind] at h
      · exact absurd h (by simp)
      cases h2 : hexDigitVal c2 <;> rw [h2] at h <;>
        simp only [Option.none_bind, Option.some_bind] at h
      · exact absurd h (by simp)
      cases h3 : unhexlify rest <;> rw [h3] at h <;>
        simp only [Option.none_bind, Option.some_bind] at h
      · exact absurd h (by simp)
      obtain rfl : _ :: _ = d := by simpa using h
      have := unhexlify_length rest _ h3
      simp only [List.length_cons]
      omega

theorem hexDigitVal_hexDigitChar : ∀ x : Nat, x < 16 →
    hexDigitVal (hexDigitChar x) = some x := by decide

theorem unhexlify_hexlify :
    ∀ l : List Nat, (∀ b ∈ l, b < 256) → unhexlify (hexlify l) = some l
  | [] => by intro _; rfl
  | b :: rest => by
      intro hb
      have hlt : b < 256 := hb b (by simp)
      have h1 : hexDigitVal (hexDigitChar (b / 16)) = some (b / 16) :=
        hexDigitVal_hexDigitChar _ (by omega)
      have h2 : hexDigitVal (hexDigitChar (b % 16)) = some (b % 16) :=
        hexDigitVal_hexDigitChar _ (by omega)
      have h3 : unhexlify (hexlify rest) = some rest :=
        unhexlify_hexlify rest (fun x hx => hb x (by simp [hx]))
      simp only [hexlify, unhexlify, Option.bind_eq_bind, h1, h2, h3,
        Option.some_bind, Option.pure_def, Option.some.injEq, List.cons.injEq,
        and_true]
      omega

theorem hexlify_length : ∀ l : List Nat, (hexlify l).length = 2 * l.length
  | [] => rfl
  | _ :: rest => by
      simp only [hexlify, List.length_cons, hexlify_length rest]
      omega

/-- A 32-byte input reaches the final branch of the constructor and is stored
unchanged with the algorithm argument (default SHA256 = 1). -/
theorem Digest_init_len32 (bs : List Nat) (h32 : bs.length = 32) :
    Digest_init bs = some (bs, 1) := by
  have h0 : bs.length ≠ 0 := by omega
  have h1 : ¬(bs.take 7 = sha256_marker ∧ bs.length = 7 + 256 / 4) := by
    rintro ⟨-, h⟩; omega
  simp [Digest_init, h0, h1, h32]

/-- The textual form `sha256:` followed by the lowercase hex encoding of a
32-byte value decodes back to the same stored bytes and algorithm. -/
theorem Digest_init_textual (d : List Nat) (hlen : d.length = 32)
    (hbyte : ∀ b ∈ d, b < 256) :
    Digest_init (sha256_marker ++ hexlify d) = some (d, 1) := by
  have hhex : (hexlify d).length = 64 := by rw [hexlify_length, hlen]
  have hslen : (sha256_marker ++ hexlify d).length = 71 := by
    simp [sha256_marker, hhex]
  have htake : (sha256_marker ++ hexlify d).take 7 = sha256_marker :=
    List.take_left sha256_marker (hexlify d)
  have hdrop : (sha256_marker ++ hexlify d).drop 7 = hexlify d :=
    List.drop_left sha256_marker (hexlify d)
  have hu : unhexlify ((sha256_marker ++ hexlify d).drop 7) = some d := by
    rw [hdrop]; exact unhexlify_hexlify d hbyte
  have h0 : (sha256_marker ++ hexlify d).length ≠ 0 := by omega
  simp [Digest_init, h0, htake, hslen, hu, hlen]

/-!  ## Claim C7: when the `Digest` constructor fails -/

/-- C7 as stated is false: construction from the empty byte string does not
raise even though its length differs from 32 — it succeeds as the null
digest with algorithm 0. -/
theorem claim_C7_counterexample :
    Digest_init [] = some ([], 0) ∧ ([] : List Nat).length ≠ 32 := by
  decide

/-- C7 amended: construction succeeds exactly when the input is empty (null
digest), is 32 bytes long, or is the 71-byte textual form `sha256:` followed
by 64 hex characters; every 32-byte input is stored unchanged with the
(default) SHA256 algorithm. -/
theorem claim_C7_init (bs : List Nat) :
    ((Digest_init bs).isSome ↔
      (bs.length = 0 ∨ bs.length = 32 ∨
        (bs.take 7 = sha256_marker ∧ bs.length = 71 ∧
          (unhexlify (bs.drop 7)).isSome))) ∧
    (bs.length = 32 → Digest_init bs = some (bs, 1)) := by
  by_cases h0 : bs.length = 0
  · constructor
    · simp [Digest_init, h0]
    · intro h32; omega
  · by_cases h1 : bs.take 7 = sha256_marker ∧ bs.length = 7 + 256 / 4
    · have h71 : bs.length = 71 := by omega
      constructor
      · cases hu : unhexlify (bs.drop 7) with
        | none => simp [Digest_init, h0, h1, hu, h71, h1.1]
        | some d =>
            have hd : 2 * d.length = (bs.drop 7).length := unhexlify_length _ _ hu
            have hd32 : d.length = 32 := by
              simp only [List.length_drop, h71] at hd; omega
            simp [Digest_init, h0, h1, hu, h71, h1.1, hd32]
      · intro h32; omega
    · by_cases h2 : bs.length = 32
      · have hD : Digest_init bs = some (bs, 1) := Digest_init_len32 bs h2
        constructor
        · simp [hD, h2]
        · intro _; exact hD
      · constructor
        · have hD : Digest_init bs = none := by
            simp [Digest_init, h0, h1, h2]
          simp only [hD, Option.isSome_none, Bool.false_eq_true, false_iff]
          push_neg
          exact ⟨h0, h2, fun ht h71 => fun _ => h1 ⟨ht, by omega⟩⟩
        · intro h32; exact absurd h32 h2

theorem claim_C7_init_witness :
    (List.replicate 32 (5 : Nat)).length = 32 ∧
    Digest_init (List.replicate 32 5) = some (List.replicate 32 5, 1) :=
  ⟨by decide, (claim_C7_init (List.replicate 32 5)).2 (by decide)⟩

/-!  ## Claim C8: textual round-trip -/

/-- C8: for every 32-byte digest value `d`, constructing a `Digest` from
`'sha256:' ++ hexlify d` (the form emitted by `Digest.__repr__`) yields the
same stored bytes and algorithm as constructing it from `d` directly. -/
theorem claim_C8_roundtrip (d : List Nat) (hlen : d.length = 32)
    (hbyte : ∀ b ∈ d, b < 256) :
    Digest_init (sha256_marker ++ hexlify d) = Digest_init d ∧
    Digest_init d = some (d, 1) := by
  have hdir : Digest_init d = some (d, 1) := Digest_init_len32 d hlen
  exact ⟨(Digest_init_textual d hlen hbyte).trans hdir.symm, hdir⟩

theorem claim_C8_roundtrip_witness :
    (List.replicate 32 (171 : Nat)).length = 32 ∧
    Digest_init (sha256_marker ++ hexlify (List.replicate 32 171))
      = Digest_init (List.replicate 32 171) ∧
    Digest_init (List.replicate 32 (171 : Nat)) = some (List.replicate 32 171, 1) :=
  ⟨by decide,
   (claim_C8_roundtrip (List.replicate 32 171) (by decide) (by decide)).1,
   (claim_C8_roundtrip (List.replicate 32 171) (by decide) (by decide)).2⟩

/-!  ## Structural lemmas for claim C4 -/

theorem mem_subAll_self : ∀ t : DigestTree, t ∈ subAll t
  | .leaf _ => by simp [subAll]
  | .vertex _ _ _ => by simp [subAll]

theorem subAll_trans :
    ∀ {a b c : DigestTree}, a ∈ subAll b → b ∈ subAll c → a ∈ subAll c := by
  intro a b c hab hbc
  induction c with
  | leaf d =>
      simp only [subAll, List.mem_singleton] at hbc
      subst hbc
      simpa [subAll] using hab
  | vertex o l r ihl ihr =>
      simp only [subAll, List.mem_cons, List.mem_append] at hbc ⊢
      rcases hbc with rfl | hl | hr
      · simpa [subAll] using hab
      · exact Or.inr (Or.inl (ihl hl))
      · exact Or.inr (Or.inr (ihr hr))

theorem mem_subAll_size :
    ∀ {u t : DigestTree}, u ∈ subAll t → size u ≤ size t := by
  intro u t
  induction t with
  | leaf d =>
      simp only [subAll, List.mem_singleton]
      rintro rfl; exact le_refl _
  | vertex o l r ihl ihr =>
      simp only [subAll, List.mem_cons, List.mem_append]
      rintro (rfl | hl | hr)
      · exact le_refl _
      · have := ihl hl; simp only [size]; omega
      · have := ihr hr; simp only [size]; omega

theorem left_mem_subAll (o : Nat) (l r : DigestTree) :
    l ∈ subAll (DigestTree.vertex o l r) := by
  simp [subAll, mem_subAll_self]

theorem right_mem_subAll (o : Nat) (l r : DigestTree) :
    r ∈ subAll (DigestTree.vertex o l r) := by
  simp [subAll, mem_subAll_self]

/-- Membership in `subAll` is: the tree itself, or a structural parent. -/
theorem mem_subAll_iff :
    ∀ {u t : DigestTree}, u ∈ subAll t ↔ u = t ∨ u ∈ all_parents_trees t := by
  intro u t
  induction t with
  | leaf d => simp [subAll, all_parents_trees]
  | vertex o l r ihl ihr =>
      simp only [subAll, all_parents_trees, List.mem_cons, List.mem_append,
        ihl, ihr]
      constructor
      · rintro (rfl | (rfl | h) | (rfl | h)) <;> tauto
      · rintro (rfl | rfl | rfl | h | h) <;> simp [mem_subAll_self, *]

theorem not_isVertex_parents_nil :
    ∀ {t : DigestTree}, t.isVertex = false → all_parents_trees t = []
  | .leaf _, _ => rfl
  | .vertex _ _ _, h => by simp [DigestTree.isVertex] at h

/-- Every tree fed to the pairing pass survives as a subtree of one of the
pass's outputs. -/
theorem combine_pairs_subtree :
    ∀ (ds : List DigestTree) (t : DigestTree), t ∈ ds →
      ∃ u ∈ combine_pairs ds, t ∈ subAll u
  | [], t => by simp
  | [a], t => by
      simp only [combine_pairs, List.mem_singleton]
      rintro rfl
      exact ⟨t, by simp, mem_subAll_self t⟩
  | a :: b :: rest, t => by
      simp only [combine_pairs, List.mem_cons]
      rintro (rfl | rfl | h)
      · exact ⟨.vertex 0 t b, by simp, subAll_trans (mem_subAll_self t)
          (left_mem_subAll 0 t b)⟩
      · exact ⟨.vertex 0 a t, by simp, subAll_trans (mem_subAll_self t)
          (right_mem_subAll 0 a t)⟩
      · obtain ⟨u, hu, htu⟩ := combine_pairs_subtree rest t h
        exact ⟨u, by simp [hu], htu⟩

theorem loopN_subtree :
    ∀ (n : Nat) (ds : List DigestTree) (t : DigestTree), t ∈ ds →
      ∃ u ∈ loopN n ds, t ∈ subAll u := by
  intro n
  induction n with
  | zero =>
      intro ds t ht
      exact ⟨t, by simpa [loopN] using ht, mem_subAll_self t⟩
  | succ n ih =>
      intro ds t ht
      by_cases hlen : ds.length > 1
      · simp only [loopN, hlen, if_true]
        obtain ⟨u, hu, htu⟩ := combine_pairs_subtree ds t ht
        obtain ⟨v, hv, huv⟩ := ih (combine_pairs ds) u hu
        exact ⟨v, hv, subAll_trans htu huv⟩
      · simp only [loopN, hlen, if_false]
        exact ⟨t, ht, mem_subAll_self t⟩

theorem all_parents_step_vertex (H : List Nat → List Nat)
    (o : Nat) (l r : DigestTree) (s : List (List Nat)) :
    all_parents_step H (.vertex o l r) s = phase_set H r (phase_set H l s) :=
  rfl

/-- Handling one child of a vertex preserves the traversal invariant and
collects that child's digest together with all of its parents' digests. -/
theorem all_parents_phase (H : List Nat → List Nat) (top : DigestTree)
    (hinj : ∀ u ∈ subAll top, ∀ v ∈ subAll top,
        digestF H u = digestF H v → u = v)
    (tOuter c : DigestTree)
    (hc : c ∈ subAll top) (hsize : size c < size tOuter)
    (ihc : ∀ (A : List DigestTree) (s : List (List Nat)),
        (∀ a ∈ A, a ∈ subAll top ∧ size c ≤ size a) →
        APInv H top A s →
        (∀ d ∈ s, d ∈ all_parents_step H c s) ∧
        APInv H top A (all_parents_step H c s) ∧
        (∀ p ∈ all_parents_trees c, digestF H p ∈ all_parents_step H c s))
    (A : List DigestTree) (s0 : List (List Nat))
    (hA : ∀ a ∈ A, a ∈ subAll top ∧ size tOuter ≤ size a)
    (hs0 : APInv H top A s0) :
    (∀ d ∈ s0, d ∈ phase_set H c s0) ∧
    APInv H top A (phase_set H c s0) ∧
    digestF H c ∈ phase_set H c s0 ∧
    (∀ p ∈ all_parents_trees c, digestF H p ∈ phase_set H c s0) := by
  by_cases hmem : digestF H c ∈ s0
  · simp only [phase_set, if_pos hmem]
    refine ⟨fun d hd => hd, hs0, hmem, ?_⟩
    obtain ⟨u, hu_sub, hu_dig, hu_st⟩ := hs0 _ hmem
    have hu_eq : u = c := hinj _ hu_sub _ hc hu_dig
    subst hu_eq
    rcases hu_st with hmemA | hclosed
    · exact absurd ((hA u hmemA).2) (by omega)
    · exact hclosed
  · by_cases hvx : c.isVertex
    · simp only [phase_set, if_neg hmem, if_pos hvx]
      have hA' : ∀ a ∈ c :: A, a ∈ subAll top ∧ size c ≤ size a := by
        intro a ha
        rcases List.mem_cons.mp ha with rfl | ha
        · exact ⟨hc, le_refl _⟩
        · exact ⟨(hA a ha).1, by have := (hA a ha).2; omega⟩
      have hs' : APInv H top (c :: A) (digestF H c :: s0) := by
        intro d hd
        rcases List.mem_cons.mp hd with rfl | hd
        · exact ⟨c, hc, rfl, Or.inl (by simp)⟩
        · obtain ⟨u, h1, h2, h3⟩ := hs0 d hd
          refine ⟨u, h1, h2, ?_⟩
          rcases h3 with h | h
          · exact Or.inl (by simp [h])
          · exact Or.inr (fun p hp => by simp [h p hp])
      obtain ⟨hsub, hinv, hpar⟩ := ihc (c :: A) (digestF H c :: s0) hA' hs'
      have hsub0 : ∀ d ∈ s0, d ∈ all_parents_step H c (digestF H c :: s0) :=
        fun d hd => hsub d (by simp [hd])
      have hcmem : digestF H c ∈ all_parents_step H c (digestF H c :: s0) :=
        hsub _ (by simp)
      refine ⟨hsub0, ?_, hcmem, hpar⟩
      intro d hd
      obtain ⟨u, h1, h2, h3⟩ := hinv d hd
      refine ⟨u, h1, h2, ?_⟩
      rcases h3 with h | h
      · rcases List.mem_cons.mp h with rfl | h
        · exact Or.inr hpar
        · exact Or.inl h
      · exact Or.inr h
    · simp only [phase_set, if_neg hmem, if_neg hvx]
      have hparnil : all_parents_trees c = [] :=
        not_isVertex_parents_nil (by simpa using hvx)
      refine ⟨fun d hd => by simp [hd], ?_, by simp, by simp [hparnil]⟩
      intro d hd
      rcases List.mem_cons.mp hd with rfl | hd
      · exact ⟨c, hc, rfl, Or.inr (by simp [hparnil])⟩
      · obtain ⟨u, h1, h2, h3⟩ := hs0 d hd
        refine ⟨u, h1, h2, ?_⟩
        rcases h3 with h | h
        · exact Or.inl h
        · exact Or.inr (fun p hp => by simp [h p hp])

/-- When distinct subtrees of `top` have distinct digests (repeated equal
subtrees are fine), the `_all_parents` traversal starting below any subtree
collects the digests of all of that subtree's parents (the membership-based
pruning never hides anything). -/
theorem all_parents_step_complete (H : List Nat → List Nat) (top : DigestTree)
    (hinj : ∀ u ∈ subAll top, ∀ v ∈ subAll top,
        digestF H u = digestF H v → u = v) :
    ∀ t, t ∈ subAll top →
      ∀ (A : List DigestTree) (s : List (List Nat)),
        (∀ a ∈ A, a ∈ subAll top ∧ size t ≤ size a) →
        APInv H top A s →
        (∀ d ∈ s, d ∈ all_parents_step H t s) ∧
        APInv H top A (all_parents_step H t s) ∧
        (∀ p ∈ all_parents_trees t, digestF H p ∈ all_parents_step H t s)
  | .leaf d => by
      intro _ A s _ hs
      exact ⟨fun d hd => hd, hs, by simp [all_parents_trees]⟩
  | .vertex o l r => by
      intro ht A s hA hs
      have hlsub : l ∈ subAll top := subAll_trans (left_mem_subAll o l r) ht
      have hrsub : r ∈ subAll top := subAll_trans (right_mem_subAll o l r) ht
      have hlsize : size l < size (DigestTree.vertex o l r) := by
        simp only [size]; omega
      have hrsize : size r < size (DigestTree.vertex o l r) := by
        simp only [size]; omega
      obtain ⟨hsub1, hinv1, hlmem, hlpar⟩ :=
        all_parents_phase H top hinj (.vertex o l r) l hlsub hlsize
          (all_parents_step_complete H top hinj l hlsub) A s hA hs
      obtain ⟨hsub2, hinv2, hrmem, hrpar⟩ :=
        all_parents_phase H top hinj (.vertex o l r) r hrsub hrsize
          (all_parents_step_complete H top hinj r hrsub) A (phase_set H l s)
          hA hinv1
      rw [all_parents_step_vertex]
      refine ⟨fun d hd => hsub2 _ (hsub1 _ hd), hinv2, ?_⟩
      intro p hp
      simp only [all_parents_trees, List.mem_cons, List.mem_append] at hp
      rcases hp with rfl | rfl | hp | hp
      · exact hsub2 _ hlmem
      · exact hrmem
      · exact hsub2 _ (hlpar _ hp)
      · exact hrpar _ hp

/-!  ## Claim C4: every submitted digest is linked to the commitment -/

/-- C4: for a non-empty round, every submitted digest is carried up to the
returned commitment: either the top is that digest itself (singleton round),
or the digest is in the top vertex's `all_parents` set.  The hypothesis is
that `digestF` is injective on the subtrees of the top — distinct subtree
values have distinct digests, which is what the Python set-based pruning
needs from a collision-free hash; repeated equal subtrees (e.g. a duplicate
digest submitted twice in the round) satisfy it trivially. -/
theorem claim_C4_linked (H : List Nat → List Nat) (ds : List (List Nat))
    (top : DigestTree)
    (htop : create_optimal_tree (ds.map DigestTree.leaf) = some top)
    (hinj : ∀ u ∈ subAll top, ∀ v ∈ subAll top,
        digestF H u = digestF H v → u = v) :
    ∀ d ∈ ds, top = DigestTree.leaf d ∨ d ∈ all_parents H top := by
  intro d hd
  have hne : ds.map DigestTree.leaf ≠ [] := by
    intro h
    rw [create_optimal_tree, h] at htop
    simp at htop
  have hlen : (ds.map DigestTree.leaf).length > 0 := List.length_pos.mpr hne
  rw [create_optimal_tree, if_pos hlen] at htop
  have hlen1 : (create_optimal_tree_loop (ds.map DigestTree.leaf)).length ≤ 1 :=
    create_optimal_tree_fuel_enough _ _ (le_refl _)
  have hnenil : create_optimal_tree_loop (ds.map DigestTree.leaf) ≠ [] :=
    loopN_ne_nil _ _ hne
  obtain ⟨x, hx⟩ : ∃ x, create_optimal_tree_loop (ds.map DigestTree.leaf) = [x] := by
    cases hL : create_optimal_tree_loop (ds.map DigestTree.leaf) with
    | nil => exact absurd hL hnenil
    | cons a t =>
        cases t with
        | nil => exact ⟨a, rfl⟩
        | cons b t' => rw [hL] at hlen1; simp at hlen1
  rw [hx] at htop
  have hxtop : x = top := by simpa using htop
  subst hxtop
  obtain ⟨u, hu, hsub⟩ := loopN_subtree _ (ds.map DigestTree.leaf)
    (DigestTree.leaf d) (List.mem_map_of_mem DigestTree.leaf hd)
  rw [show loopN (ds.map DigestTree.leaf).length (ds.map DigestTree.leaf)
        = create_optimal_tree_loop (ds.map DigestTree.leaf) from rfl, hx] at hu
  have hu_eq : u = x := by simpa using hu
  rw [hu_eq] at hsub
  rcases mem_subAll_iff.mp hsub with heq | hpar
  · exact Or.inl heq.symm
  · right
    have hmain := (all_parents_step_complete H x hinj x (mem_subAll_self x)
      [] [] (by simp) (by intro d hd; exact absurd hd (List.not_mem_nil d))).2.2
    have hdm := hmain _ hpar
    simpa [all_parents, digestF] using hdm

theorem claim_C4_linked_witness :
    create_optimal_tree (([[0], [0]] : List (List Nat)).map DigestTree.leaf)
        = some (DigestTree.vertex 0 (.leaf [0]) (.leaf [0])) ∧
    (∀ u ∈ subAll (DigestTree.vertex 0 (.leaf [0]) (.leaf [0])),
      ∀ v ∈ subAll (DigestTree.vertex 0 (.leaf [0]) (.leaf [0])),
        digestF id u = digestF id v → u = v) ∧
    (DigestTree.vertex 0 (.leaf [0]) (.leaf [0]) = DigestTree.leaf [0] ∨
      [0] ∈ all_parents id (DigestTree.vertex 0 (.leaf [0]) (.leaf [0]))) :=
  ⟨by decide, by decide,
   claim_C4_linked id [[0], [0]] (DigestTree.vertex 0 (.leaf [0]) (.leaf [0]))
     (by decide) (by decide) [0] (by decide)⟩

/-!  ## Lemmas for claim C2: the code's loop vs the spec's MMR-then-bag -/

/-- On every non-empty input the pairing loop ends in a single tree. -/
theorem loop_singleton (ds : List DigestTree) (h : ds ≠ []) :
    ∃ t, create_optimal_tree_loop ds = [t] := by
  have h1 : (create_optimal_tree_loop ds).length ≤ 1 :=
    create_optimal_tree_fuel_enough _ _ (le_refl _)
  have h2 : create_optimal_tree_loop ds ≠ [] := loopN_ne_nil _ _ h
  cases hL : create_optimal_tree_loop ds with
  | nil => exact absurd hL h2
  | cons a t =>
      cases t with
      | nil => exact ⟨a, rfl⟩
      | cons b t' => rw [hL] at h1; simp at h1

/-- A pairing pass distributes over an append at an even boundary. -/
theorem combine_pairs_append_even :
    ∀ (xs ys : List DigestTree), xs.length % 2 = 0 →
      combine_pairs (xs ++ ys) = combine_pairs xs ++ combine_pairs ys
  | [], ys, _ => by simp [combine_pairs]
  | [_], ys, h => by simp at h
  | a :: b :: rest, ys, h => by
      have hr : rest.length % 2 = 0 := by simp at h; omega
      simp only [List.cons_append, combine_pairs]
      rw [show rest.append ys = rest ++ ys from rfl,
        combine_pairs_append_even rest ys hr]

/-- Running the loop is the same as first doing one pass (when a pass will
happen at all). -/
theorem loop_step (ds : List DigestTree) (h : ds.length > 1) :
    create_optimal_tree_loop ds = create_optimal_tree_loop (combine_pairs ds) := by
  obtain ⟨m, hm⟩ : ∃ m, ds.length = m + 1 := ⟨ds.length - 1, by omega⟩
  unfold create_optimal_tree_loop
  rw [hm]
  simp only [loopN]
  rw [if_pos h]
  exact loopN_eq_of_le m (combine_pairs ds)
    (by rw [combine_pairs_length]; omega)
    (le_refl _)

theorem loop_nil_or_single :
    ∀ (ds : List DigestTree), ds.length ≤ 1 → create_optimal_tree_loop ds = ds := by
  intro ds h
  unfold create_optimal_tree_loop
  cases hL : ds.length with
  | zero => simp [loopN]
  | succ n =>
      have : n = 0 := by omega
      subst this
      simp [loopN, hL]

/-- Appending a single element to a power-of-two list: the loop pairs the
whole power-of-two block first and the straggler joins at the very top. -/
theorem loop_pow2_append_one :
    ∀ (a : Nat) (xs : List DigestTree) (tx y : DigestTree), 1 ≤ a →
      xs.length = 2 ^ a → create_optimal_tree_loop xs = [tx] →
      create_optimal_tree_loop (xs ++ [y]) = [DigestTree.vertex 0 tx y] := by
  intro a
  induction a with
  | zero => intro xs tx y h _ _; omega
  | succ a ih =>
      intro xs tx y _ hlen hloop
      have h2a : (1:Nat) ≤ 2 ^ a := Nat.one_le_two_pow
      have hpow : (2:Nat) ^ (a + 1) = 2 ^ a * 2 := pow_succ 2 a
      have hxs2 : xs.length > 1 := by rw [hlen, hpow]; omega
      have heven : xs.length % 2 = 0 := by rw [hlen, hpow]; omega
      have hcomb_len : (combine_pairs xs).length = 2 ^ a := by
        rw [combine_pairs_length, hlen, hpow]; omega
      have hcomb_loop : create_optimal_tree_loop (combine_pairs xs) = [tx] :=
        (loop_step xs hxs2).symm.trans hloop
      have happ2 : (xs ++ [y]).length > 1 := by
        rw [List.length_append, hlen, hpow]
        simp only [List.length_singleton]
        omega
      rw [loop_step _ happ2, combine_pairs_append_even xs [y] heven,
        show combine_pairs [y] = [y] from rfl]
      by_cases ha : a = 0
      · subst ha
        obtain ⟨w, hw⟩ : ∃ w, combine_pairs xs = [w] := by
          cases hC : combine_pairs xs with
          | nil => rw [hC] at hcomb_len; simp at hcomb_len
          | cons c t =>
              cases t with
              | nil => exact ⟨c, rfl⟩
              | cons d t' => rw [hC] at hcomb_len; simp at hcomb_len
        rw [hw] at hcomb_loop
        have hwtx : w = tx := by
          have hsingle := loop_nil_or_single [w] (by simp)
          rw [hsingle] at hcomb_loop
          simpa using hcomb_loop
        subst hwtx
        rw [hw]
        simp [create_optimal_tree_loop, loopN, combine_pairs]
      · exact ih (combine_pairs xs) tx y (by omega) hcomb_len hcomb_loop

/-- The loop over a power-of-two block followed by a strictly smaller
power-of-two block combines the two blocks' tops at the very end. -/
theorem loop_pow2_append :
    ∀ (b a : Nat) (xs ys : List DigestTree) (tx ty : DigestTree), b < a →
      xs.length = 2 ^ a → ys.length = 2 ^ b →
      create_optimal_tree_loop xs = [tx] →
      create_optimal_tree_loop ys = [ty] →
      create_optimal_tree_loop (xs ++ ys) = [DigestTree.vertex 0 tx ty] := by
  intro b
  induction b with
  | zero =>
      intro a xs ys tx ty hba hx hy hlx hly
      obtain ⟨y, rfl⟩ : ∃ y, ys = [y] := by
        cases ys with
        | nil => simp at hy
        | cons c t =>
            cases t with
            | nil => exact ⟨c, rfl⟩
            | cons d t' => simp at hy
      have hyty : y = ty := by
        have hsingle := loop_nil_or_single [y] (by simp)
        rw [hsingle] at hly
        simpa using hly
      subst hyty
      exact loop_pow2_append_one a xs tx y (by omega) hx hlx
  | succ b ih =>
      intro a xs ys tx ty hba hx hy hlx hly
      obtain ⟨a', rfl⟩ : ∃ a', a = a' + 1 := ⟨a - 1, by omega⟩
      have h2a : (1:Nat) ≤ 2 ^ a' := Nat.one_le_two_pow
      have h2b : (1:Nat) ≤ 2 ^ b := Nat.one_le_two_pow
      have hxs2 : xs.length > 1 := by rw [hx, pow_succ]; omega
      have hys2 : ys.length > 1 := by rw [hy, pow_succ]; omega
      have heven : xs.length % 2 = 0 := by rw [hx, pow_succ]; omega
      have happ2 : (xs ++ ys).length > 1 := by
        rw [List.length_append]; omega
      rw [loop_step _ happ2, combine_pairs_append_even xs ys heven]
      exact ih a' (combine_pairs xs) (combine_pairs ys) tx ty (by omega)
        (by rw [combine_pairs_length, hx, pow_succ]; omega)
        (by rw [combine_pairs_length, hy, pow_succ]; omega)
        ((loop_step xs hxs2).symm.trans hlx)
        ((loop_step ys hys2).symm.trans hly)

/-- The spec's combining pass is the same operation as the code's inner
pairing pass. -/
theorem spec_combine_pass_eq :
    ∀ ds : List DigestTree, spec_combine_pass ds = combine_pairs ds
  | [] => rfl
  | [_] => rfl
  | _ :: _ :: rest => by
      simp only [spec_combine_pass, combine_pairs, spec_combine_pass_eq rest]

theorem spec_buildN_eq :
    ∀ (n : Nat) (ds : List DigestTree), spec_buildN n ds = loopN n ds := by
  intro n
  induction n with
  | zero => intro ds; rfl
  | succ n ih =>
      intro ds
      by_cases h : ds.length > 1
      · simp only [spec_buildN, loopN, h, if_true, spec_combine_pass_eq, ih]
      · simp only [spec_buildN, loopN, h, if_false]

theorem spec_build_eq (ds : List DigestTree) :
    spec_build ds = create_optimal_tree_loop ds :=
  spec_buildN_eq _ _

theorem log2N_eq : ∀ (f n : Nat), n ≤ f → log2N f n = Nat.log2 n := by
  intro f
  induction f with
  | zero =>
      intro n h
      obtain rfl : n = 0 := by omega
      rw [log2N, Nat.log2]
      simp
  | succ f ih =>
      intro n h
      rw [log2N, Nat.log2]
      by_cases h2 : n ≥ 2
      · rw [if_pos h2, if_pos h2, ih (n / 2) (by omega)]
      · rw [if_neg h2, if_neg h2]

theorem log2floor_eq (n : Nat) : log2floor n = Nat.log2 n :=
  log2N_eq n n (le_refl n)

theorem spec_mmr_peaksN_nil : ∀ n : Nat, spec_mmr_peaksN n [] = [] := by
  intro n
  cases n <;> simp [spec_mmr_peaksN]

/-- On a power-of-two list the MMR forest is the single perfect tree over
the whole list. -/
theorem spec_mmr_peaksN_pow2 (k : Nat) (fuel : Nat) (xs : List DigestTree)
    (hf : 1 ≤ fuel) (hx : xs.length = 2 ^ k) :
    spec_mmr_peaksN fuel xs
      = [(spec_build xs).headD (DigestTree.leaf [])] := by
  obtain ⟨f, rfl⟩ : ∃ f, fuel = f + 1 := ⟨fuel - 1, by omega⟩
  have h2k : (1:Nat) ≤ 2 ^ k := Nat.one_le_two_pow
  have hne : ¬xs.length = 0 := by omega
  have hlog : log2floor xs.length = k := by
    rw [log2floor_eq, hx, Nat.log2_eq_log_two, Nat.log_pow (by norm_num)]
  simp only [spec_mmr_peaksN, hne, if_false, hlog]
  rw [← hx, List.take_length, List.drop_length, spec_mmr_peaksN_nil]

theorem loop_pair (p q : DigestTree) :
    create_optimal_tree_loop [p, q] = [DigestTree.vertex 0 p q] := by
  simp [create_optimal_tree_loop, loopN, combine_pairs]

/-!  ## Claim C2: refinement of `create_optimal_tree` against the MMR spec -/

/-- C2 as stated is false: at seven digests the code's level-wise pairing
(which pairs the height-1 tree over digests 5,6 with the lone digest 7 at the
second level) differs in shape from the spec's mountain range
(peaks of heights 2, 1, 0, bagged left to right), so the trees — and hence
the commitments — differ. -/
theorem claim_C2_counterexample :
    create_optimal_tree
        (([[1], [2], [3], [4], [5], [6], [7]] : List (List Nat)).map DigestTree.leaf)
      ≠ spec_top
        (([[1], [2], [3], [4], [5], [6], [7]] : List (List Nat)).map DigestTree.leaf) := by
  decide

/-- C2 amended: the code's tree coincides with the spec's
MMR-then-bag construction exactly on the round sizes where the two
associations agree — when the number of digests has at most two set bits
(`n = 2^a`, or `n = 2^a + 2^b` with `b < a`; this covers every `n ≤ 6`,
while `n = 7` is the first divergence).  Equal trees have equal top
digests. -/
theorem claim_C2_mmr_refinement (H : List Nat → List Nat)
    (ds : List (List Nat))
    (hsz : (∃ a, ds.length = 2 ^ a) ∨
           (∃ a b, b < a ∧ ds.length = 2 ^ a + 2 ^ b)) :
    create_optimal_tree (ds.map DigestTree.leaf)
        = spec_top (ds.map DigestTree.leaf) ∧
    (create_optimal_tree (ds.map DigestTree.leaf)).map (digestF H)
        = (spec_top (ds.map DigestTree.leaf)).map (digestF H) := by
  suffices h : create_optimal_tree (ds.map DigestTree.leaf)
      = spec_top (ds.map DigestTree.leaf) from ⟨h, by rw [h]⟩
  set ts := ds.map DigestTree.leaf with hts
  have hlents : ts.length = ds.length := by rw [hts, List.length_map]
  rcases hsz with ⟨a, ha⟩ | ⟨a, b, hba, hab⟩
  · have h2a : (1:Nat) ≤ 2 ^ a := Nat.one_le_two_pow
    have hlen : ts.length = 2 ^ a := by rw [hlents, ha]
    have hne : ts ≠ [] := by
      intro h
      rw [h] at hlen
      simp only [List.length_nil] at hlen
      omega
    obtain ⟨t, ht⟩ := loop_singleton ts hne
    have hpos : ts.length > 0 := List.length_pos.mpr hne
    rw [create_optimal_tree, if_pos hpos, ht]
    unfold spec_top spec_mmr_peaks
    rw [spec_mmr_peaksN_pow2 a ts.length ts (by omega) hlen,
      spec_build_eq ts, ht]
    simp only [List.headD_cons, spec_build_eq [t],
      loop_nil_or_single [t] (by simp)]
  · have h2a : (1:Nat) ≤ 2 ^ a := Nat.one_le_two_pow
    have h2b : (1:Nat) ≤ 2 ^ b := Nat.one_le_two_pow
    have hb_lt : (2:Nat) ^ b < 2 ^ a := Nat.pow_lt_pow_right (by norm_num) hba
    have hlen : ts.length = 2 ^ a + 2 ^ b := by rw [hlents, hab]
    set xs := ts.take (2 ^ a) with hxs
    set ys := ts.drop (2 ^ a) with hys
    have hxy : xs ++ ys = ts := List.take_append_drop _ _
    have hxlen : xs.length = 2 ^ a := by
      rw [hxs, List.length_take]; omega
    have hylen : ys.length = 2 ^ b := by
      rw [hys, List.length_drop]; omega
    obtain ⟨tx, htx⟩ := loop_singleton xs (by
      intro h; rw [h] at hxlen
      simp only [List.length_nil] at hxlen; omega)
    obtain ⟨ty, hty⟩ := loop_singleton ys (by
      intro h; rw [h] at hylen
      simp only [List.length_nil] at hylen; omega)
    have hcode : create_optimal_tree_loop ts = [DigestTree.vertex 0 tx ty] := by
      rw [← hxy]
      exact loop_pow2_append b a xs ys tx ty hba hxlen hylen htx hty
    have hpos : ts.length > 0 := by omega
    rw [create_optimal_tree, if_pos hpos, hcode]
    have hlog : log2floor ts.length = a := by
      rw [log2floor_eq, hlen, Nat.log2_eq_log_two]
      exact Nat.log_eq_of_pow_le_of_lt_pow (by omega) (by rw [pow_succ]; omega)
    obtain ⟨f, hf⟩ : ∃ f, ts.length = f + 1 := ⟨ts.length - 1, by omega⟩
    have hpeaks : spec_mmr_peaks ts = [tx, ty] := by
      unfold spec_mmr_peaks
      rw [hf]
      simp only [spec_mmr_peaksN]
      rw [if_neg (by omega : ¬ts.length = 0), hlog, ← hxs, ← hys,
        spec_mmr_peaksN_pow2 b f ys (by omega) hylen,
        spec_build_eq xs, htx, spec_build_eq ys, hty]
      simp
    unfold spec_top
    rw [hpeaks, spec_build_eq, loop_pair]

theorem claim_C2_mmr_refinement_witness :
    ((∃ a, ([[1], [2], [3]] : List (List Nat)).length = 2 ^ a) ∨
      (∃ a b, b < a ∧
        ([[1], [2], [3]] : List (List Nat)).length = 2 ^ a + 2 ^ b)) ∧
    create_optimal_tree (([[1], [2], [3]] : List (List Nat)).map DigestTree.leaf)
      = spec_top (([[1], [2], [3]] : List (List Nat)).map DigestTree.leaf) :=
  ⟨Or.inr ⟨1, 0, by decide⟩,
   (claim_C2_mmr_refinement id [[1], [2], [3]] (Or.inr ⟨1, 0, by decide⟩)).1⟩

end OTS
